import Mathlib

/-!
Verification of the cookie-based synchronization barrier implemented in
`CookieSync.cpp` (watchman).  The C++ class `CookieSync` is shallowly embedded
as a state type `SyncState` together with one Lean function per member
function.  Machine integers that can only decrease from their initial value
(the `numPending` counter) are modelled as `Nat`; fallible operations return
`Except`.  The watcher / caller environment (which paths get observed, whether
file creation succeeds, how long a completion handle takes to resolve) is
passed in as explicit parameters, so every definition is executable.
-/

set_option autoImplicit false

/-- Decimal digit characters (fuelled structural recursion so that concrete
values reduce inside the kernel; `fuel > n` always suffices). -/
def natDecAux : Nat → Nat → List Char
  | 0, _ => []
  | f + 1, n =>
    if n < 10 then [Nat.digitChar n]
    else natDecAux f (n / 10) ++ [Nat.digitChar (n % 10)]

/-- Decimal digit characters, as produced by the integer formatting used by
`w_string::build(prefix, serial)` when the serial is appended to the path. -/
def natDecChars (n : Nat) : List Char :=
  natDecAux (n + 1) n

theorem natDecAux_fuel_irrel :
    ∀ (f₁ f₂ n : Nat), n < f₁ → n < f₂ → natDecAux f₁ n = natDecAux f₂ n := by
  intro f₁
  induction f₁ with
  | zero => intro f₂ n h1; omega
  | succ f ih =>
    intro f₂ n h1 h2
    cases f₂ with
    | zero => omega
    | succ g =>
      show (if n < 10 then [Nat.digitChar n]
          else natDecAux f (n / 10) ++ [Nat.digitChar (n % 10)]) = _
      by_cases h10 : n < 10
      · simp [natDecAux, h10]
      · have hdiv : n / 10 < n := Nat.div_lt_self (by omega) (by omega)
        have hrec := ih g (n / 10) (by omega) (by omega)
        simp [natDecAux, h10, hrec]

/-- Decimal rendering of a natural number (the `<serial>` component of a
cookie file name). -/
def natDec (n : Nat) : String := ⟨natDecChars n⟩

/-- Left inverse of `natDecChars`, used to prove that decimal rendering is
injective (so distinct serials give distinct cookie file names). -/
def decValChars (l : List Char) : Nat :=
  l.foldl (fun a c => 10 * a + (c.toNat - 48)) 0

/-- Modelled from the spec: `w_string_startswith(str, pre)` (defined outside
the given sources) tests whether `pre` is a string prefix of `str`. -/
def wStringStartswith (str pre : String) : Bool :=
  pre.data.isPrefixOf str.data

/-- Modelled from the spec: `w_string::baseName()` (defined outside the given
sources) returns the filename portion of a path, i.e. everything after the
last '/' (the whole string when there is no '/'). -/
def baseName (p : String) : String :=
  ⟨(p.data.reverse.takeWhile (fun c => c != '/')).reverse⟩

/-- `CookieSync::Cookie`: the per-barrier record.  `numPending` is the atomic
remaining-count; `outcome` models the one-shot promise: `none` while pending,
`some true` once `setValue()` ran (fulfilled), `some false` once
`setException(CookieSyncAborted)` ran (failed-aborted). -/
structure Cookie where
  numPending : Nat
  outcome : Option Bool
  deriving DecidableEq, Repr

/-- The decrement-and-maybe-complete step shared by `Cookie::notify()` (with
`v = true`, promise fulfilled) and the loop body of `abortAllCookies` (with
`v = false`, promise failed): `numPending.fetch_sub(1)` followed by the
completion call exactly when the fetched (pre-decrement) value was 1. -/
def Cookie.notifyVal (v : Bool) (c : Cookie) : Cookie :=
  if c.numPending = 1 then { numPending := 0, outcome := some v }
  else { numPending := c.numPending - 1, outcome := c.outcome }

/-- `CookieSync::Cookie::notify()`. -/
def Cookie.notify (c : Cookie) : Cookie := Cookie.notifyVal true c

/-- The state of a `CookieSync` object.  `table` is the pending cookie map
`cookies_` (path → cookie id, keys unique); `store` is the heap of shared
`Cookie` objects, addressed by an allocation counter `nextId`; `dirs` and
`cookiePfx` are the contents of `cookieDirs_` (directory set and the shared
filename prefix `cookiePrefix_`); `serial` is the process-wide counter
`serial_`. -/
structure SyncState where
  dirs : List String
  cookiePfx : String
  table : List (String × Nat)
  store : Nat → Cookie
  nextId : Nat
  serial : Nat

/-- Point update of the cookie heap. -/
def updateStore (store : Nat → Cookie) (id : Nat) (c : Cookie) : Nat → Cookie :=
  fun j => if j = id then c else store j

/-- `CookieSync::cookiePrefix()`: one directory-qualified filename prefix
`dir ++ "/" ++ cookiePrefix_` per registered directory. -/
def cookiePrefixes (s : SyncState) : List String :=
  s.dirs.map (fun d => d ++ "/" ++ s.cookiePfx)

/-- One iteration of the file-creation loop in `CookieSync::sync()`.  The
accumulator carries (`pendingCookies`, the cookie's `numPending`, `lastError`).
`touch path = none` models a successful `w_stm_open`; `touch path = some e`
models a failed creation with OS error code `e`. -/
def syncStep (touch : String → Option Nat) (serial : Nat) (cid : Nat)
    (acc : List (String × Nat) × Nat × Option (String × Nat)) (pre : String) :
    List (String × Nat) × Nat × Option (String × Nat) :=
  let path := pre ++ natDec serial
  match touch path with
  | some errCode => (acc.1, acc.2.1 - 1, some (path, errCode))
  | none => (acc.1 ++ [(path, cid)], acc.2.1, acc.2.2)

/-- The two ways `CookieSync::sync()` can throw: `lastErr` is the
`std::system_error` built from the last recorded per-directory failure;
`assertNoError` marks the state in which the `w_assert(lastError.has_value())`
assertion fails (no cookie written but also no error recorded). -/
inductive SyncErr where
  | assertNoError
  | lastErr (path : String) (code : Nat)
  deriving DecidableEq, Repr

/-- Batch `cookiesLock->insert(pendingCookies.begin(), pendingCookies.end())`:
`std::unordered_map::insert` adds each entry whose key is not already
present and keeps the existing entry otherwise. -/
def tableInsert (t p : List (String × Nat)) : List (String × Nat) :=
  p.foldl (fun acc e => if (acc.lookup e.1).isSome then acc else acc ++ [e]) t

/-- `CookieSync::sync()`.  Returns the successor state and either the id of
the freshly allocated `Cookie` (whose future the caller would hold) or the
thrown error.  Note `serial_++` happens before any possible throw, so the
serial is consumed in every case. -/
def sync (touch : String → Option Nat) (s : SyncState) :
    SyncState × Except SyncErr Nat :=
  let prefixes := cookiePrefixes s
  let cid := s.nextId
  let acc := prefixes.foldl (syncStep touch s.serial cid) ([], prefixes.length, none)
  let s1 : SyncState := { s with serial := s.serial + 1 }
  if acc.1 = [] then
    match acc.2.2 with
    | none => (s1, .error .assertNoError)
    | some pe => (s1, .error (.lastErr pe.1 pe.2))
  else
    ({ s1 with
        table := tableInsert s1.table acc.1
        store := updateStore s1.store cid ⟨acc.2.1, none⟩
        nextId := s1.nextId + 1 },
     .ok cid)

/-- `CookieSync::notifyCookie(path)`: look the path up in `cookies_`; if
present, erase the entry, notify the cookie, and best-effort `unlink` the
file (the returned `Option String` records which path, if any, was passed to
`unlink`); if absent, do nothing. -/
def notifyCookie (s : SyncState) (path : String) : SyncState × Option String :=
  match s.table.lookup path with
  | none => (s, none)
  | some id =>
      ({ s with
          table := s.table.eraseP (fun e => e.1 == path)
          store := updateStore s.store id (Cookie.notify (s.store id)) },
       some path)

/-- The entries of the pending table whose path starts with `dir` (the ones
`CookieSync::removeCookieDir` cancels). -/
def matchedEntries (table : List (String × Nat)) (dir : String) :
    List (String × Nat) :=
  table.filter (fun e => wStringStartswith e.1 dir)

/-- Folding the notify/abort decrement over a list of displaced table
entries, as done by the loops of `removeCookieDir` (with `v = true`) and
`abortAllCookies` (with `v = false`). -/
def foldNotifyStore (v : Bool) (store : Nat → Cookie)
    (entries : List (String × Nat)) : Nat → Cookie :=
  entries.foldl (fun st e => updateStore st e.2 (Cookie.notifyVal v (st e.2))) store

/-- `CookieSync::removeCookieDir(dir)`, intended semantics.  The source's loop
`for (const auto& [cookiePath, cookie] : *cookies) { if (startswith) { notify;
erase; } }` erases elements of the `unordered_map` while range-iterating over
it, which invalidates the loop iterator (undefined behavior in C++); this
definition captures the loop's evident intent, stated by the comment above it
("Cancel the cookies in the removed directory. These are considered to be
serviced."): erase the directory from the registry, then notify and erase
every pending entry whose path starts with `dir`. -/
def removeCookieDir (s : SyncState) (dir : String) : SyncState :=
  { s with
      dirs := s.dirs.filter (fun d => d != dir)
      table := s.table.filter (fun e => !(wStringStartswith e.1 dir))
      store := foldNotifyStore true s.store (matchedEntries s.table dir) }

/-- `CookieSync::abortAllCookies()`: swap the whole pending map for an empty
one, then for each displaced entry `fetch_sub` the cookie's count and set the
`CookieSyncAborted` exception when the fetched value was 1. -/
def abortAllCookies (s : SyncState) : SyncState :=
  { s with
      table := []
      store := foldNotifyStore false s.store s.table }

/-- `CookieSync::isCookiePrefix(path)` (the spec's `isCookiePath`): true when
some registered directory is a string prefix of `path` and `path`'s basename
starts with the shared cookie filename prefix. -/
def isCookiePath (s : SyncState) (path : String) : Bool :=
  s.dirs.any (fun dir =>
    wStringStartswith path dir && wStringStartswith (baseName path) s.cookiePfx)

/-- Modelled from the spec (for comparison with `isCookiePath`): the parent
directory of a path, i.e. everything before the last '/'. -/
def parentDir (p : String) : String :=
  ⟨((p.data.reverse.dropWhile (fun c => c != '/')).drop 1).reverse⟩

/-- The spec's wording of C7, as a definition: the path's parent directory is
an exact member of the registered directory set and its filename starts with
the shared cookie prefix. -/
def isCookiePathParentSpec (s : SyncState) (path : String) : Bool :=
  s.dirs.contains (parentDir path)
    && wStringStartswith (baseName path) s.cookiePfx

/-- `entryCount table id`: how many pending-table entries reference cookie
`id`. -/
def entryCount (table : List (String × Nat)) (id : Nat) : Nat :=
  table.countP (fun e => e.2 == id)

/-- The state invariant maintained by `CookieSync`: pending-table keys are
unique (it models an `unordered_map`), the directory registry is a set,
every table entry references an allocated cookie, a pending cookie's
remaining-count equals the number of table entries referencing it, and a
completed cookie has no remaining shares. -/
def StateInv (s : SyncState) : Prop :=
  s.table.Pairwise (fun a b => a.1 ≠ b.1) ∧
  s.dirs.Nodup ∧
  (∀ e ∈ s.table, e.2 < s.nextId) ∧
  (∀ id, entryCount s.table id =
    (if (s.store id).outcome = none then (s.store id).numPending else 0)) ∧
  (∀ id, (s.store id).outcome ≠ none → (s.store id).numPending = 0)

/-- The operations quantified over by the single-transition claim: any
interleaving of notifications, directory removals and aborts. -/
inductive Op where
  | notify (path : String)
  | remove (dir : String)
  | abortAll

/-- Apply one `Op`. -/
def applyOp (s : SyncState) : Op → SyncState
  | .notify p => (notifyCookie s p).1
  | .remove d => removeCookieDir s d
  | .abortAll => abortAllCookies s

/-- Apply a sequence of `Op`s in order. -/
def applyOps (s : SyncState) (ops : List Op) : SyncState :=
  ops.foldl applyOp s

/-- The full operation alphabet, including `sync()` calls (each carrying its
environment's file-creation behavior). -/
inductive FullOp where
  | sync (touch : String → Option Nat)
  | notify (path : String)
  | remove (dir : String)
  | abortAll

/-- Apply one `FullOp`. -/
def applyFullOp (s : SyncState) : FullOp → SyncState
  | .sync touch => (sync touch s).1
  | .notify p => (notifyCookie s p).1
  | .remove d => removeCookieDir s d
  | .abortAll => abortAllCookies s

/-- The serial numbers handed out to the `sync()` calls of an operation
sequence, in call order (`auto serial = serial_++;`). -/
def serialTrace (s : SyncState) : List FullOp → List Nat
  | [] => []
  | .sync touch :: ops => s.serial :: serialTrace (sync touch s).1 ops
  | op :: ops => serialTrace (applyFullOp s op) ops

/-- Result alphabet of `CookieSync::syncToNow`. -/
inductive STNResult where
  | success
  | timedOut
  | abortPropagated
  deriving DecidableEq, Repr

/-- The retry loop of `CookieSync::syncToNow`.  Each element of `rounds`
describes how the completion handle of that iteration's `sync()` call would
resolve: `none` if it never resolves, `some (v, t)` if it resolves after `t`
milliseconds, fulfilled when `v = true` and aborted when `v = false`.
`cookie.wait(timeout)` is ready exactly when `t ≤ timeout`.  Times are
integral milliseconds (`std::chrono::milliseconds` counts, which may be
negative after subtraction).  Returns `none` if the environment trace is
exhausted while the loop would continue. -/
def syncToNowLoop (rounds : List (Option (Bool × Int)))
    (now deadline timeout : Int) : Option STNResult :=
  match rounds with
  | [] => none
  | r :: rest =>
    match r with
    | none => some .timedOut
    | some (v, t) =>
      if t > timeout then some .timedOut
      else if v then some .success
      else
        let now2 := now + t
        let timeout2 := deadline - now2
        if timeout2 ≤ 0 then some .abortPropagated
        else syncToNowLoop rest now2 deadline timeout2

/-- `CookieSync::syncToNow(timeout)`: compute the absolute deadline once at
entry, then run the loop. -/
def syncToNow (rounds : List (Option (Bool × Int))) (start timeout : Int) :
    Option STNResult :=
  syncToNowLoop rounds start (start + timeout) timeout

/-! ### Decimal rendering: injectivity -/

theorem digitChar_toNat (d : Nat) (h : d < 10) : (Nat.digitChar d).toNat = 48 + d := by
  interval_cases d <;> rfl

theorem decVal_natDecChars (n : Nat) : decValChars (natDecChars n) = n := by
  induction n using Nat.strong_induction_on with
  | _ n ih =>
    by_cases h : n < 10
    · show decValChars (natDecAux (n + 1) n) = n
      rw [show natDecAux (n + 1) n = [Nat.digitChar n] by simp [natDecAux, h]]
      simp [decValChars, digitChar_toNat n h]
    · have hlt : n / 10 < n := Nat.div_lt_self (by omega) (by omega)
      have hmod : n % 10 < 10 := Nat.mod_lt _ (by omega)
      show decValChars (natDecAux (n + 1) n) = n
      rw [show natDecAux (n + 1) n
          = natDecAux n (n / 10) ++ [Nat.digitChar (n % 10)] by simp [natDecAux, h]]
      rw [natDecAux_fuel_irrel n (n / 10 + 1) (n / 10) (by omega) (by omega)]
      unfold decValChars
      rw [List.foldl_append]
      have hih := ih (n / 10) hlt
      unfold decValChars natDecChars at hih
      rw [hih]
      simp [digitChar_toNat _ hmod]
      omega

theorem natDecChars_inj {a b : Nat} (h : natDecChars a = natDecChars b) : a = b := by
  have hre := decVal_natDecChars a
  rw [h, decVal_natDecChars] at hre
  omega

theorem data_append (a b : String) : (a ++ b).data = a.data ++ b.data :=
  String.data_append a b

theorem append_natDec_inj {pre : String} {a b : Nat}
    (h : pre ++ natDec a = pre ++ natDec b) : a = b := by
  have hd : (pre ++ natDec a).data = (pre ++ natDec b).data := by rw [h]
  rw [data_append, data_append] at hd
  have hc : (natDec a).data = (natDec b).data := List.append_cancel_left hd
  exact natDecChars_inj hc

theorem append_natDec_ne {pre : String} {a b : Nat} (h : a ≠ b) :
    pre ++ natDec a ≠ pre ++ natDec b :=
  fun hc => h (append_natDec_inj hc)

theorem string_append_right_cancel {a b c : String} (h : a ++ c = b ++ c) : a = b := by
  have hd : (a ++ c).data = (b ++ c).data := by rw [h]
  rw [data_append, data_append] at hd
  have hc := List.append_cancel_right hd
  cases a; cases b
  exact congrArg String.mk hc

/-! ### Association-list helper lemmas -/

theorem lookup_eq_none_iff (l : List (String × Nat)) (p : String) :
    l.lookup p = none ↔ ∀ e ∈ l, e.1 ≠ p := by
  induction l with
  | nil => simp
  | cons x xs ih =>
    obtain ⟨q, v⟩ := x
    by_cases hq : q = p
    · subst hq
      simp [List.lookup]
    · have hbeq : (p == q) = false := beq_eq_false_iff_ne.mpr (Ne.symm hq)
      simp [List.lookup, hbeq, ih, hq]

theorem lookup_split {l : List (String × Nat)} {p : String} {id : Nat}
    (h : l.lookup p = some id) :
    ∃ l₁ l₂, l = l₁ ++ (p, id) :: l₂ ∧ ∀ e ∈ l₁, e.1 ≠ p := by
  induction l with
  | nil => simp [List.lookup] at h
  | cons x xs ih =>
    obtain ⟨q, v⟩ := x
    by_cases hq : q = p
    · subst hq
      simp [List.lookup] at h
      exact ⟨[], xs, by simp [h], by simp⟩
    · have hbeq : (p == q) = false := beq_eq_false_iff_ne.mpr (Ne.symm hq)
      simp [List.lookup, hbeq] at h
      rcases ih h with ⟨l₁, l₂, heq, hne⟩
      refine ⟨(q, v) :: l₁, l₂, by simp [heq], ?_⟩
      intro e he
      rcases List.mem_cons.mp he with he | he
      · simpa [he] using hq
      · exact hne e he

/-! ### The decrement iteration performed on a single cookie -/

/-- `k` successive applications of the decrement-and-maybe-complete step. -/
def iterNotify (v : Bool) : Nat → Cookie → Cookie
  | 0, c => c
  | k + 1, c => iterNotify v k (Cookie.notifyVal v c)

theorem foldNotifyStore_apply (v : Bool) (entries : List (String × Nat))
    (store : Nat → Cookie) (id : Nat) :
    foldNotifyStore v store entries id
      = iterNotify v (entryCount entries id) (store id) := by
  induction entries generalizing store with
  | nil => rfl
  | cons e rest ih =>
    by_cases he : e.2 = id
    · have hbeq : (e.2 == id) = true := beq_iff_eq.mpr he
      have hcount : entryCount (e :: rest) id = entryCount rest id + 1 := by
        simp [entryCount, List.countP_cons, hbeq]
      rw [hcount]
      show foldNotifyStore v (updateStore store e.2 (Cookie.notifyVal v (store e.2))) rest id
        = iterNotify v (entryCount rest id + 1) (store id)
      rw [ih]
      have hstore : updateStore store e.2 (Cookie.notifyVal v (store e.2)) id
          = Cookie.notifyVal v (store id) := by
        simp [updateStore, he]
      rw [hstore]
      rfl
  
    · have hbeq : (e.2 == id) = false := beq_eq_false_iff_ne.mpr he
      have hcount : entryCount (e :: rest) id = entryCount rest id := by
        simp [entryCount, List.countP_cons, hbeq]
      rw [hcount]
      show foldNotifyStore v (updateStore store e.2 (Cookie.notifyVal v (store e.2))) rest id
        = iterNotify v (entryCount rest id) (store id)
      rw [ih]
      have hstore : updateStore store e.2 (Cookie.notifyVal v (store e.2)) id = store id := by
        unfold updateStore
        rw [if_neg (fun hc => he hc.symm)]
      rw [hstore]

theorem iterNotify_pending_lt (v : Bool) (k n : Nat) (h : k < n) :
    iterNotify v k ⟨n, none⟩ = ⟨n - k, none⟩ := by
  induction k generalizing n with
  | zero => rfl
  | succ k ih =>
    show iterNotify v k (Cookie.notifyVal v ⟨n, none⟩) = _
    have hn1 : n ≠ 1 := by omega
    have hstep : Cookie.notifyVal v ⟨n, none⟩ = ⟨n - 1, none⟩ := by
      simp [Cookie.notifyVal, hn1]
    rw [hstep, ih (n - 1) (by omega)]
    congr 1
    omega

theorem iterNotify_complete (v : Bool) (n : Nat) (h : 0 < n) :
    iterNotify v n ⟨n, none⟩ = ⟨0, some v⟩ := by
  induction n with
  | zero => omega
  | succ n ih =>
    by_cases hn : n = 0
    · subst hn
      show iterNotify v 0 (Cookie.notifyVal v ⟨1, none⟩) = _
      simp [Cookie.notifyVal, iterNotify]
    · show iterNotify v n (Cookie.notifyVal v ⟨n + 1, none⟩) = _
      have hstep : Cookie.notifyVal v ⟨n + 1, none⟩ = ⟨n, none⟩ := by
        simp [Cookie.notifyVal]
        omega
      rw [hstep]
      exact ih (by omega)

theorem iterNotify_fixed (v : Bool) (k : Nat) (x : Option Bool) :
    iterNotify v k ⟨0, x⟩ = ⟨0, x⟩ := by
  induction k with
  | zero => rfl
  | succ k ih =>
    show iterNotify v k (Cookie.notifyVal v ⟨0, x⟩) = _
    have hstep : Cookie.notifyVal v ⟨0, x⟩ = ⟨0, x⟩ := by
      simp [Cookie.notifyVal]
    rw [hstep, ih]

/-! ### Counting helpers -/

theorem countP_partition (l : List (String × Nat)) (q r : (String × Nat) → Bool) :
    (l.filter r).countP q + (l.filter (fun x => !(r x))).countP q = l.countP q := by
  induction l with
  | nil => rfl
  | cons x xs ih =>
    by_cases hr : r x
    · simp [List.filter_cons, hr, List.countP_cons, ← ih]
      by_cases hq : q x <;> simp [hq] <;> omega
    · simp [List.filter_cons, hr, List.countP_cons, ← ih]
      by_cases hq : q x <;> simp [hq] <;> omega

theorem erase_found_entry (l₁ l₂ : List (String × Nat)) (p : String) (id : Nat)
    (h : ∀ e ∈ l₁, e.1 ≠ p) :
    (l₁ ++ (p, id) :: l₂).eraseP (fun e => e.1 == p) = l₁ ++ l₂ := by
  rw [List.eraseP_append_right _ (fun a ha => by simp [h a ha])]
  congr 1
  exact List.eraseP_cons_of_pos (by simp)

theorem notifyCookie_not_found {s : SyncState} {p : String}
    (h : s.table.lookup p = none) : notifyCookie s p = (s, none) := by
  simp [notifyCookie, h]

/-! ### Invariant preservation -/

theorem cookie_eta (c : Cookie) : c = ⟨c.numPending, c.outcome⟩ := rfl

theorem abort_preserves (s : SyncState) (hInv : StateInv s) :
    StateInv (abortAllCookies s) ∧
    ∀ id x, (s.store id).outcome = some x →
      ((abortAllCookies s).store id).outcome = some x := by
  obtain ⟨hkeys, hdirs, hids, hcnt, hterm⟩ := hInv
  have hstore : ∀ id, (abortAllCookies s).store id
      = iterNotify false (entryCount s.table id) (s.store id) := by
    intro id
    exact foldNotifyStore_apply false s.table s.store id
  have hfacts : ∀ id,
      ((abortAllCookies s).store id = s.store id ∧ entryCount s.table id = 0) ∨
      ((abortAllCookies s).store id = ⟨0, some false⟩ ∧ (s.store id).outcome = none) := by
    intro id
    rcases hoc : (s.store id).outcome with _ | x
    · have hnp : (s.store id).numPending = entryCount s.table id := by
        have := hcnt id
        rw [hoc] at this
        simp at this
        omega
      rcases Nat.eq_zero_or_pos (entryCount s.table id) with hk | hk
      · left
        refine ⟨?_, hk⟩
        rw [hstore id, hk]
        rfl
      · right
        refine ⟨?_, rfl⟩
        rw [hstore id, cookie_eta (s.store id), hoc, hnp]
        exact iterNotify_complete false _ hk
    · left
      have hk : entryCount s.table id = 0 := by
        have := hcnt id
        rw [hoc] at this
        simpa using this
      refine ⟨?_, hk⟩
      rw [hstore id, hk]
      rfl
  constructor
  · refine ⟨by simp [abortAllCookies], hdirs, by simp [abortAllCookies], ?_, ?_⟩
    · intro id
      have hempty : entryCount (abortAllCookies s).table id = 0 := by
        simp [abortAllCookies, entryCount]
      rw [hempty]
      rcases hfacts id with ⟨heq, hk⟩ | ⟨heq, hoc⟩
      · rw [heq]
        have := hcnt id
        rw [hk] at this
        exact this
      · rw [heq]
        simp
    · intro id hoc
      rcases hfacts id with ⟨heq, _⟩ | ⟨heq, _⟩
      · rw [heq] at hoc ⊢
        exact hterm id hoc
      · rw [heq]
  · intro id x hx
    rcases hfacts id with ⟨heq, _⟩ | ⟨heq, hoc⟩
    · rw [heq, hx]
    · rw [hoc] at hx
      cases hx

theorem remove_table_eq (s : SyncState) (dir : String) :
    (removeCookieDir s dir).table
      = s.table.filter (fun e => !(wStringStartswith e.1 dir)) := rfl

theorem remove_count_split (s : SyncState) (dir : String) (id : Nat) :
    entryCount (matchedEntries s.table dir) id
      + entryCount (removeCookieDir s dir).table id = entryCount s.table id := by
  rw [remove_table_eq]
  exact countP_partition s.table (fun e => e.2 == id) (fun e => wStringStartswith e.1 dir)

theorem remove_preserves (s : SyncState) (hInv : StateInv s) (dir : String) :
    StateInv (removeCookieDir s dir) ∧
    ∀ id x, (s.store id).outcome = some x →
      ((removeCookieDir s dir).store id).outcome = some x := by
  obtain ⟨hkeys, hdirs, hids, hcnt, hterm⟩ := hInv
  have hstore : ∀ id, (removeCookieDir s dir).store id
      = iterNotify true (entryCount (matchedEntries s.table dir) id) (s.store id) := by
    intro id
    exact foldNotifyStore_apply true (matchedEntries s.table dir) s.store id
  have hfacts : ∀ id,
      ((removeCookieDir s dir).store id = s.store id ∧
        entryCount (matchedEntries s.table dir) id = 0) ∨
      ((removeCookieDir s dir).store id = ⟨0, some true⟩ ∧
        (s.store id).outcome = none ∧ entryCount (removeCookieDir s dir).table id = 0) ∨
      ((removeCookieDir s dir).store id
          = ⟨entryCount (removeCookieDir s dir).table id, none⟩ ∧
        (s.store id).outcome = none ∧
        0 < entryCount (removeCookieDir s dir).table id) := by
    intro id
    have hsplit := remove_count_split s dir id
    rcases hoc : (s.store id).outcome with _ | x
    · have hnp : (s.store id).numPending = entryCount s.table id := by
        have hc := hcnt id
        rw [hoc] at hc
        simp at hc
        omega
      rcases Nat.eq_zero_or_pos (entryCount (matchedEntries s.table dir) id) with hm | hm
      · left
        refine ⟨?_, hm⟩
        rw [hstore id, hm]
        rfl
      · rcases Nat.eq_zero_or_pos (entryCount (removeCookieDir s dir).table id) with hk | hk
        · right; left
          refine ⟨?_, rfl, hk⟩
          rw [hstore id, cookie_eta (s.store id), hoc, hnp, ← hsplit, hk]
          exact iterNotify_complete true _ (by omega)
        · right; right
          refine ⟨?_, rfl, hk⟩
          rw [hstore id, cookie_eta (s.store id), hoc, hnp, ← hsplit]
          rw [iterNotify_pending_lt true _ _ (by omega)]
          congr 1
          omega
    · left
      have hk : entryCount s.table id = 0 := by
        have hc := hcnt id
        rw [hoc] at hc
        simpa using hc
      have hm : entryCount (matchedEntries s.table dir) id = 0 := by omega
      refine ⟨?_, hm⟩
      rw [hstore id, hm]
      rfl
  constructor
  · refine ⟨?_, ?_, ?_, ?_, ?_⟩
    · rw [remove_table_eq]
      exact hkeys.sublist (List.filter_sublist s.table)
    · exact hdirs.filter _
    · intro e he
      rw [remove_table_eq] at he
      exact hids e (List.mem_of_mem_filter he)
    · intro id
      rcases hfacts id with ⟨heq, hm⟩ | ⟨heq, hoc, hk⟩ | ⟨heq, hoc, hk⟩
      · rw [heq]
        have hsplit := remove_count_split s dir id
        have hc := hcnt id
        omega
      · rw [heq, hk]
        simp
      · rw [heq]
        simp
    · intro id hoc
      rcases hfacts id with ⟨heq, _⟩ | ⟨heq, _, _⟩ | ⟨heq, _, _⟩
      · rw [heq] at hoc ⊢
        exact hterm id hoc
      · rw [heq]
      · rw [heq] at hoc
        simp at hoc
  · intro id x hx
    rcases hfacts id with ⟨heq, _⟩ | ⟨heq, hoc, _⟩ | ⟨heq, hoc, _⟩
    · rw [heq, hx]
    · rw [hoc] at hx
      cases hx
    · rw [hoc] at hx
      cases hx

theorem notify_preserves (s : SyncState) (hInv : StateInv s) (p : String) :
    StateInv (notifyCookie s p).1 ∧
    ∀ id x, (s.store id).outcome = some x →
      (((notifyCookie s p).1).store id).outcome = some x := by
  obtain ⟨hkeys, hdirs, hids, hcnt, hterm⟩ := hInv
  rcases hl : s.table.lookup p with _ | cid
  · rw [notifyCookie_not_found hl]
    exact ⟨⟨hkeys, hdirs, hids, hcnt, hterm⟩, fun id x hx => hx⟩
  · obtain ⟨l₁, l₂, heq, hne⟩ := lookup_split hl
    have htab : (notifyCookie s p).1.table = l₁ ++ l₂ := by
      simp only [notifyCookie, hl]
      rw [heq]
      exact erase_found_entry l₁ l₂ p cid hne
    have hstore : (notifyCookie s p).1.store
        = updateStore s.store cid (Cookie.notify (s.store cid)) := by
      simp only [notifyCookie, hl]
    have hdirseq : (notifyCookie s p).1.dirs = s.dirs := by
      simp only [notifyCookie, hl]
    have hnext : (notifyCookie s p).1.nextId = s.nextId := by
      simp only [notifyCookie, hl]
    have hsid : ∀ id, (notifyCookie s p).1.store id
        = if id = cid then Cookie.notify (s.store cid) else s.store id := by
      intro id
      rw [hstore]
      rfl
    have hcsplit : ∀ id, entryCount s.table id
        = entryCount (l₁ ++ l₂) id + (if cid = id then 1 else 0) := by
      intro id
      by_cases h : cid = id
      · rw [heq]
        simp [entryCount, List.countP_append, List.countP_cons, h]
        omega
      · rw [heq]
        simp [entryCount, List.countP_append, List.countP_cons, h]
    have hocnone : (s.store cid).outcome = none := by
      by_contra hoc
      have hc := hcnt cid
      rw [if_neg hoc] at hc
      have hs := hcsplit cid
      simp at hs
      omega
    have hnp : (s.store cid).numPending = entryCount (l₁ ++ l₂) cid + 1 := by
      have hc := hcnt cid
      rw [if_pos hocnone] at hc
      have hs := hcsplit cid
      simp at hs
      omega
    have hnotify : Cookie.notify (s.store cid)
        = if entryCount (l₁ ++ l₂) cid = 0 then ⟨0, some true⟩
          else ⟨entryCount (l₁ ++ l₂) cid, none⟩ := by
      rw [cookie_eta (s.store cid), hocnone, hnp]
      by_cases h0 : entryCount (l₁ ++ l₂) cid = 0
      · simp [Cookie.notify, Cookie.notifyVal, h0]
      · rw [if_neg h0]
        show Cookie.notifyVal true _ = _
        rw [Cookie.notifyVal]
        simp [h0]
    have hmem : ∀ e, e ∈ l₁ ++ l₂ → e ∈ s.table := by
      intro e he
      rw [heq]
      rcases List.mem_append.mp he with h1 | h2
      · exact List.mem_append_left _ h1
      · exact List.mem_append_right _ (List.mem_cons_of_mem _ h2)
    refine ⟨⟨?_, ?_, ?_, ?_, ?_⟩, ?_⟩
    · rw [htab]
      have hsub : (l₁ ++ l₂).Sublist (l₁ ++ (p, cid) :: l₂) :=
        (List.sublist_cons_self (p, cid) l₂).append_left l₁
      exact (heq ▸ hkeys).sublist hsub
    · rw [hdirseq]
      exact hdirs
    · intro e he
      rw [htab] at he
      rw [hnext]
      exact hids e (hmem e he)
    · intro id
      rw [htab, hsid id]
      by_cases hid : id = cid
      · subst hid
        rw [if_pos rfl, hnotify]
        by_cases h0 : entryCount (l₁ ++ l₂) id = 0
        · rw [if_pos h0]
          simp [h0]
        · rw [if_neg h0]
          simp
      · rw [if_neg hid]
        have hc := hcnt id
        have hs := hcsplit id
        rw [if_neg (fun hc2 => hid hc2.symm)] at hs
        omega
    · intro id hoc
      rw [hsid id] at hoc ⊢
      by_cases hid : id = cid
      · rw [if_pos hid] at hoc ⊢
        rw [hnotify] at hoc ⊢
        by_cases h0 : entryCount (l₁ ++ l₂) cid = 0
        · rw [if_pos h0]
        · rw [if_neg h0] at hoc
          simp at hoc
      · rw [if_neg hid] at hoc ⊢
        exact hterm id hoc
    · intro id x hx
      rw [hsid id]
      by_cases hid : id = cid
      · subst hid
        rw [hocnone] at hx
        cases hx
      · rw [if_neg hid]
        exact hx

theorem step_preserves (s : SyncState) (hInv : StateInv s) (o : Op) :
    StateInv (applyOp s o) ∧
    ∀ id x, (s.store id).outcome = some x →
      ((applyOp s o).store id).outcome = some x := by
  cases o with
  | notify p => exact notify_preserves s hInv p
  | remove d => exact remove_preserves s hInv d
  | abortAll => exact abort_preserves s hInv

theorem applyOps_preserves (s : SyncState) (hInv : StateInv s) (ops : List Op) :
    StateInv (applyOps s ops) ∧
    ∀ id x, (s.store id).outcome = some x →
      ((applyOps s ops).store id).outcome = some x := by
  induction ops generalizing s with
  | nil => exact ⟨hInv, fun id x hx => hx⟩
  | cons o ops ih =>
    obtain ⟨hInv1, hstable1⟩ := step_preserves s hInv o
    obtain ⟨hInv2, hstable2⟩ := ih (applyOp s o) hInv1
    exact ⟨hInv2, fun id x hx => hstable2 id x (hstable1 id x hx)⟩

/-! ### Characterizing the file-creation loop of `sync()` -/

/-- The pending-table entries built up by a run of the creation loop: one
entry per directory prefix whose file creation succeeded. -/
def createdPending (touch : String → Option Nat) (serial cid : Nat)
    (pres : List String) : List (String × Nat) :=
  (pres.filter (fun pre => (touch (pre ++ natDec serial)).isNone)).map
    (fun pre => (pre ++ natDec serial, cid))

/-- The value of the loop's `lastError` variable after processing `pres`,
starting from `e₀`. -/
def lastErrorOf (touch : String → Option Nat) (serial : Nat)
    (pres : List String) (e₀ : Option (String × Nat)) : Option (String × Nat) :=
  pres.foldl (fun acc pre =>
    match touch (pre ++ natDec serial) with
    | some c => some (pre ++ natDec serial, c)
    | none => acc) e₀

theorem sync_foldl_eq (touch : String → Option Nat) (serial cid : Nat)
    (pres : List String) (P₀ : List (String × Nat)) (n₀ : Nat)
    (e₀ : Option (String × Nat)) :
    pres.foldl (syncStep touch serial cid) (P₀, n₀, e₀)
      = (P₀ ++ createdPending touch serial cid pres,
         n₀ - pres.countP (fun pre => (touch (pre ++ natDec serial)).isSome),
         lastErrorOf touch serial pres e₀) := by
  induction pres generalizing P₀ n₀ e₀ with
  | nil => simp [createdPending, lastErrorOf]
  | cons pre rest ih =>
    rcases ht : touch (pre ++ natDec serial) with _ | c
    · rw [List.foldl_cons]
      have hstep : syncStep touch serial cid (P₀, n₀, e₀) pre
          = (P₀ ++ [(pre ++ natDec serial, cid)], n₀, e₀) := by
        simp [syncStep, ht]
      rw [hstep, ih]
      have hcp : createdPending touch serial cid (pre :: rest)
          = (pre ++ natDec serial, cid) :: createdPending touch serial cid rest := by
        simp [createdPending, List.filter_cons, ht]
      have hcnt : (pre :: rest).countP (fun q => (touch (q ++ natDec serial)).isSome)
          = rest.countP (fun q => (touch (q ++ natDec serial)).isSome) := by
        simp [List.countP_cons, ht]
      have hle : lastErrorOf touch serial (pre :: rest) e₀
          = lastErrorOf touch serial rest e₀ := by
        simp [lastErrorOf, ht]
      rw [hcp, hcnt, hle, List.append_assoc]
      rfl
    · rw [List.foldl_cons]
      have hstep : syncStep touch serial cid (P₀, n₀, e₀) pre
          = (P₀, n₀ - 1, some (pre ++ natDec serial, c)) := by
        simp [syncStep, ht]
      rw [hstep, ih]
      have hcp : createdPending touch serial cid (pre :: rest)
          = createdPending touch serial cid rest := by
        simp [createdPending, List.filter_cons, ht]
      have hcnt : (pre :: rest).countP (fun q => (touch (q ++ natDec serial)).isSome)
          = rest.countP (fun q => (touch (q ++ natDec serial)).isSome) + 1 := by
        simp [List.countP_cons, ht]
      have hle : lastErrorOf touch serial (pre :: rest) e₀
          = lastErrorOf touch serial rest (some (pre ++ natDec serial, c)) := by
        simp [lastErrorOf, ht]
      rw [hcp, hcnt, hle]
      have : n₀ - 1 - rest.countP (fun q => (touch (q ++ natDec serial)).isSome)
          = n₀ - (rest.countP (fun q => (touch (q ++ natDec serial)).isSome) + 1) := by
        omega
      rw [this]

theorem countP_total (pres : List String) (p : String → Bool) :
    pres.countP p + pres.countP (fun a => !(p a)) = pres.length := by
  induction pres with
  | nil => rfl
  | cons a t ih =>
    by_cases h : p a
    · simp [List.countP_cons, h]
      omega
    · simp [List.countP_cons, h]
      omega

theorem lastErrorOf_all_fail (touch : String → Option Nat) (serial : Nat)
    (pres : List String) (code : String → Nat)
    (hfail : ∀ pre ∈ pres, touch (pre ++ natDec serial) = some (code pre)) :
    ∀ lp, pres.getLast? = some lp →
      ∀ e₀, lastErrorOf touch serial pres e₀
        = some (lp ++ natDec serial, code lp) := by
  induction pres with
  | nil => intro lp h; cases h
  | cons pre rest ih =>
    intro lp hlp e₀
    cases rest with
    | nil =>
        simp at hlp
        subst hlp
        simp [lastErrorOf, hfail pre (by simp)]
    | cons r rs =>
        rw [List.getLast?_cons_cons] at hlp
        have hstep : lastErrorOf touch serial (pre :: r :: rs) e₀
            = lastErrorOf touch serial (r :: rs)
                (some (pre ++ natDec serial, code pre)) := by
          simp [lastErrorOf, hfail pre (by simp)]
        rw [hstep]
        exact ih (fun q hq => hfail q (List.mem_cons_of_mem _ hq)) lp hlp _

theorem createdPending_nil_of_all_fail (touch : String → Option Nat)
    (serial cid : Nat) (pres : List String)
    (hfail : ∀ pre ∈ pres, (touch (pre ++ natDec serial)).isSome) :
    createdPending touch serial cid pres = [] := by
  unfold createdPending
  rw [List.filter_eq_nil_iff.mpr]
  · rfl
  · intro a ha hn
    have := hfail a ha
    rcases h : touch (a ++ natDec serial) with _ | c
    · rw [h] at this
      cases this
    · rw [h] at hn
      cases hn

theorem createdPending_length (touch : String → Option Nat) (serial cid : Nat)
    (pres : List String) :
    (createdPending touch serial cid pres).length
      = pres.countP (fun pre => (touch (pre ++ natDec serial)).isNone) := by
  unfold createdPending
  rw [List.length_map, List.countP_eq_length_filter]

theorem sync_all_fail (touch : String → Option Nat) (s : SyncState)
    (code : String → Nat)
    (hfail : ∀ pre ∈ cookiePrefixes s,
      touch (pre ++ natDec s.serial) = some (code pre))
    (lp : String) (hlp : (cookiePrefixes s).getLast? = some lp) :
    sync touch s = ({ s with serial := s.serial + 1 },
      .error (.lastErr (lp ++ natDec s.serial) (code lp))) := by
  simp only [sync]
  rw [sync_foldl_eq]
  rw [createdPending_nil_of_all_fail touch s.serial s.nextId (cookiePrefixes s)
    (fun pre hpre => by rw [hfail pre hpre]; rfl)]
  rw [lastErrorOf_all_fail touch s.serial (cookiePrefixes s) code hfail lp hlp none]
  simp

theorem sync_has_success (touch : String → Option Nat) (s : SyncState)
    (hsucc : 0 < (cookiePrefixes s).countP
      (fun pre => (touch (pre ++ natDec s.serial)).isNone)) :
    sync touch s
      = ({ s with
            serial := s.serial + 1
            table := tableInsert s.table
              (createdPending touch s.serial s.nextId (cookiePrefixes s))
            store := updateStore s.store s.nextId
              ⟨(cookiePrefixes s).countP
                  (fun pre => (touch (pre ++ natDec s.serial)).isNone), none⟩
            nextId := s.nextId + 1 },
         .ok s.nextId) := by
  have hne2 : createdPending touch s.serial s.nextId (cookiePrefixes s) ≠ [] := by
    intro hc
    have hl := createdPending_length touch s.serial s.nextId (cookiePrefixes s)
    rw [hc] at hl
    simp at hl
    omega
  have hnp : (cookiePrefixes s).length
      - (cookiePrefixes s).countP (fun pre => (touch (pre ++ natDec s.serial)).isSome)
      = (cookiePrefixes s).countP (fun pre => (touch (pre ++ natDec s.serial)).isNone) := by
    have htot := countP_total (cookiePrefixes s)
      (fun pre => (touch (pre ++ natDec s.serial)).isSome)
    have hcong : (cookiePrefixes s).countP
        (fun pre => !((touch (pre ++ natDec s.serial)).isSome))
        = (cookiePrefixes s).countP (fun pre => (touch (pre ++ natDec s.serial)).isNone) := by
      apply List.countP_congr
      intro a _
      rcases touch (a ++ natDec s.serial) with _ | c <;> simp
    omega
  simp only [sync]
  rw [sync_foldl_eq]
  simp only [List.nil_append, hne2, if_neg, hnp]
  rfl

/-! ### Lookup and insertion helpers -/

theorem lookup_append_left_none (l₁ l₂ : List (String × Nat)) (p : String)
    (h : l₁.lookup p = none) : (l₁ ++ l₂).lookup p = l₂.lookup p := by
  induction l₁ with
  | nil => rfl
  | cons e t ih =>
    have hne : e.1 ≠ p := ((lookup_eq_none_iff (e :: t) p).mp h) e (by simp)
    have ht : t.lookup p = none := by
      rw [lookup_eq_none_iff] at h ⊢
      exact fun x hx => h x (List.mem_cons_of_mem _ hx)
    rw [show (e :: t) ++ l₂ = (e.1, e.2) :: (t ++ l₂) by simp]
    rw [List.lookup_cons]
    simp only [show (p == e.1) = false from beq_eq_false_iff_ne.mpr (fun hc => hne hc.symm)]
    exact ih ht

theorem lookup_map_const (P : List String) (cid : Nat) (q : String) (hq : q ∈ P) :
    (P.map (fun r => (r, cid))).lookup q = some cid := by
  induction P with
  | nil => cases hq
  | cons r t ih =>
    by_cases hr : r = q
    · simp [List.lookup, beq_iff_eq.mpr hr.symm]
    · rw [List.map_cons, List.lookup_cons]
      simp only [show (q == r) = false from beq_eq_false_iff_ne.mpr (fun hc => hr hc.symm)]
      exact ih (by
        rcases List.mem_cons.mp hq with h | h
        · exact absurd h.symm hr
        · exact h)

theorem tableInsert_fresh (t p : List (String × Nat))
    (hfresh : ∀ e ∈ p, t.lookup e.1 = none)
    (hnd : p.Pairwise (fun a b => a.1 ≠ b.1)) :
    tableInsert t p = t ++ p := by
  induction p generalizing t with
  | nil => simp [tableInsert]
  | cons e rest ih =>
    have he : t.lookup e.1 = none := hfresh e (by simp)
    have hstep : tableInsert t (e :: rest) = tableInsert (t ++ [e]) rest := by
      simp [tableInsert, he]
    rw [hstep, ih (t ++ [e])]
    · simp
    · intro x hx
      rw [lookup_eq_none_iff]
      intro y hy
      rcases List.mem_append.mp hy with h1 | h2
      · exact ((lookup_eq_none_iff t x.1).mp (hfresh x (List.mem_cons_of_mem _ hx))) y h1
      · have : y = e := by simpa using h2
        subst this
        exact (List.pairwise_cons.mp hnd).1 x hx
    · exact (List.pairwise_cons.mp hnd).2

theorem notifyCookie_found (s : SyncState) (p : String) (cid : Nat)
    (hl : s.table.lookup p = some cid) :
    (notifyCookie s p).1 = { s with
        table := s.table.eraseP (fun e => e.1 == p)
        store := updateStore s.store cid (Cookie.notify (s.store cid)) } := by
  simp [notifyCookie, hl]

/-! ### The notification fold over a fresh barrier (claim C1 core) -/

theorem notify_fold_progress (l : List String) :
    ∀ (P : List String) (base : List (String × Nat)) (t : SyncState) (cid : Nat),
    l.Nodup → (∀ q ∈ l, q ∈ P) → P.Nodup → P ≠ [] →
    (∀ q ∈ P, base.lookup q = none) →
    t.table = base ++ P.map (fun q => (q, cid)) →
    t.store cid = ⟨P.length, none⟩ →
    ∃ P2 : List String,
      (l.foldl (fun st q => (notifyCookie st q).1) t).table
          = base ++ P2.map (fun q => (q, cid)) ∧
      P2.Nodup ∧ (∀ q ∈ P2, q ∈ P) ∧
      (l.foldl (fun st q => (notifyCookie st q).1) t).store cid
          = ⟨P.length - l.length, if l.length = P.length then some true else none⟩ := by
  induction l with
  | nil =>
    intro P base t cid _ _ hPnd hPne hbase htab hstore
    refine ⟨P, htab, hPnd, fun q hq => hq, ?_⟩
    have h0 : ¬ ((0 : Nat) = P.length) := by
      intro h0
      exact hPne (List.length_eq_zero.mp h0.symm)
    rw [List.foldl_nil, hstore]
    simp [h0]
  | cons q₀ l' ih =>
    intro P base t cid hlnd hlsub hPnd hPne hbase htab hstore
    have hq₀P : q₀ ∈ P := hlsub q₀ (by simp)
    obtain ⟨Pa, Pb, hPsplit⟩ := List.append_of_mem hq₀P
    have hPnd2 : (Pa ++ q₀ :: Pb).Nodup := hPsplit ▸ hPnd
    have hq₀Pa : q₀ ∉ Pa := by
      intro hmem
      have := (List.nodup_append.mp hPnd2).2.2
      exact this hmem (by simp)
    have hq₀Pb : q₀ ∉ Pb := by
      have := ((List.nodup_append.mp hPnd2).2.1)
      exact (List.nodup_cons.mp this).1
    have hlookup : t.table.lookup q₀ = some cid := by
      rw [htab, lookup_append_left_none _ _ _ (hbase q₀ hq₀P)]
      exact lookup_map_const P cid q₀ hq₀P
    have ht1 := notifyCookie_found t q₀ cid hlookup
    have ht1tab : (notifyCookie t q₀).1.table = base ++ (Pa ++ Pb).map (fun q => (q, cid)) := by
      rw [ht1]
      show t.table.eraseP (fun e => e.1 == q₀) = _
      rw [htab, hPsplit]
      rw [List.map_append, List.map_cons]
      rw [show base ++ (Pa.map (fun q => (q, cid)) ++ ((q₀, cid) :: Pb.map (fun q => (q, cid))))
          = (base ++ Pa.map (fun q => (q, cid))) ++ ((q₀, cid) :: Pb.map (fun q => (q, cid))) by
        simp]
      rw [erase_found_entry _ _ _ _ ?hne]
      · simp
      case hne =>
        intro e he
        rcases List.mem_append.mp he with h1 | h2
        · exact ((lookup_eq_none_iff base q₀).mp (hbase q₀ hq₀P)) e h1
        · rcases List.mem_map.mp h2 with ⟨r, hr, hre⟩
          rw [← hre]
          intro hc
          exact hq₀Pa (hc ▸ hr)
    have ht1store : (notifyCookie t q₀).1.store cid = Cookie.notify ⟨P.length, none⟩ := by
      rw [ht1]
      show updateStore t.store cid (Cookie.notify (t.store cid)) cid = _
      simp [updateStore, hstore]
    have hfold : ((q₀ :: l').foldl (fun st q => (notifyCookie st q).1) t)
        = l'.foldl (fun st q => (notifyCookie st q).1) (notifyCookie t q₀).1 := by
      rw [List.foldl_cons]
    have hlenP : P.length = Pa.length + Pb.length + 1 := by
      rw [hPsplit]
      simp
      omega
    by_cases hP1 : P.length = 1
    · have hPa : Pa = [] := by
        have := hlenP
        rw [hP1] at this
        exact List.length_eq_zero.mp (by omega)
      have hPb : Pb = [] := by
        have := hlenP
        rw [hP1] at this
        exact List.length_eq_zero.mp (by omega)
      have hPeq : P = [q₀] := by
        rw [hPsplit, hPa, hPb]
        rfl
      have hl' : l' = [] := by
        rw [List.eq_nil_iff_forall_not_mem]
        intro x hx
        have hxP : x ∈ P := hlsub x (List.mem_cons_of_mem _ hx)
        have hxq : x = q₀ := by
          rw [hPeq] at hxP
          simpa using hxP
        exact (List.nodup_cons.mp hlnd).1 (hxq ▸ hx)
      refine ⟨[], ?_, by simp, by simp, ?_⟩
      · rw [hfold, hl', List.foldl_nil, ht1tab, hPa, hPb]
        rfl
      · rw [hfold, hl', List.foldl_nil, ht1store, hP1]
        simp [Cookie.notify, Cookie.notifyVal]
    · have hP2 : 2 ≤ P.length := by
        have : 1 ≤ P.length := by
          rw [hPsplit]
          simp
          omega
        omega
      have hnotify : Cookie.notify ⟨P.length, none⟩ = ⟨P.length - 1, none⟩ := by
        simp [Cookie.notify, Cookie.notifyVal, hP1]
      have hP'nd : (Pa ++ Pb).Nodup := by
        rcases List.nodup_append.mp hPnd2 with ⟨ha, hb, hdisj⟩
        exact List.Nodup.append ha (List.nodup_cons.mp hb).2
          (fun x hxa hxb => hdisj hxa (List.mem_cons_of_mem _ hxb))
      have hP'len : (Pa ++ Pb).length = P.length - 1 := by
        simp [hlenP]
      have hl'sub : ∀ q ∈ l', q ∈ Pa ++ Pb := by
        intro q hq
        have hqP : q ∈ P := hlsub q (List.mem_cons_of_mem _ hq)
        have hqne : q ≠ q₀ := by
          intro hc
          exact (List.nodup_cons.mp hlnd).1 (hc ▸ hq)
        rw [hPsplit] at hqP
        rcases List.mem_append.mp hqP with h1 | h2
        · exact List.mem_append_left _ h1
        · rcases List.mem_cons.mp h2 with h3 | h3
          · exact absurd h3 hqne
          · exact List.mem_append_right _ h3
      obtain ⟨P2, htab2, hnd2, hsub2, hstore2⟩ :=
        ih (Pa ++ Pb) base (notifyCookie t q₀).1 cid
          (List.nodup_cons.mp hlnd).2 hl'sub hP'nd
          (by
            intro hc
            have := hP'len
            rw [hc] at this
            simp at this
            omega)
          (fun q hq => hbase q (by
            rw [hPsplit]
            rcases List.mem_append.mp hq with h1 | h2
            · exact List.mem_append_left _ h1
            · exact List.mem_append_right _ (List.mem_cons_of_mem _ h2)))
          ht1tab
          (by rw [ht1store, hnotify, hP'len])
      refine ⟨P2, by rw [hfold]; exact htab2, hnd2, ?_, ?_⟩
      · intro q hq
        have hq' := hsub2 q hq
        rw [hPsplit]
        rcases List.mem_append.mp hq' with h1 | h2
        · exact List.mem_append_left _ h1
        · exact List.mem_append_right _ (List.mem_cons_of_mem _ h2)
      · rw [hfold, hstore2]
        have hlen1 : (Pa ++ Pb).length - l'.length = P.length - (q₀ :: l').length := by
          simp only [List.length_append, List.length_cons]
          omega
        have hiff : (l'.length = (Pa ++ Pb).length) ↔ ((q₀ :: l').length = P.length) := by
          simp only [List.length_append, List.length_cons]
          constructor <;> omega
        exact congr (congrArg Cookie.mk hlen1) (if_congr hiff rfl rfl)

theorem cookiePrefixes_nodup (s : SyncState) (h : s.dirs.Nodup) :
    (cookiePrefixes s).Nodup := by
  unfold cookiePrefixes
  apply List.Nodup.map_on ?_ h
  intro x _ y _ hxy
  exact string_append_right_cancel (string_append_right_cancel hxy)

theorem syncPaths_nodup (s : SyncState) (h : s.dirs.Nodup) :
    ((cookiePrefixes s).map (fun pre => pre ++ natDec s.serial)).Nodup := by
  apply List.Nodup.map_on ?_ (cookiePrefixes_nodup s h)
  intro x _ y _ hxy
  exact string_append_right_cancel hxy

theorem subset_length_le {l P : List String} (hl : l.Nodup) (hsub : ∀ q ∈ l, q ∈ P) :
    l.length ≤ P.length :=
  (List.subperm_of_subset hl hsub).length_le

/-- C1: for a barrier created by `sync()` over `N` registered directories in
which every cookie file is created successfully, and with only `notifyCookie`
calls afterwards, the completion handle is fulfilled exactly when all `N`
distinct cookie paths have been notified, in any delivery order, and is still
pending after any smaller number of distinct notifications. -/
theorem sync_barrier_completion (s : SyncState) (touch : String → Option Nat)
    (l : List String)
    (hdirs : s.dirs.Nodup) (hne : s.dirs ≠ [])
    (hsucc : ∀ pre ∈ cookiePrefixes s, touch (pre ++ natDec s.serial) = none)
    (hfresh : ∀ pre ∈ cookiePrefixes s,
      s.table.lookup (pre ++ natDec s.serial) = none)
    (hlnd : l.Nodup)
    (hlsub : ∀ q ∈ l, q ∈ (cookiePrefixes s).map (fun pre => pre ++ natDec s.serial)) :
    (((l.foldl (fun st q => (notifyCookie st q).1) (sync touch s).1).store s.nextId).outcome
        = some true
      ↔ ∀ q ∈ (cookiePrefixes s).map (fun pre => pre ++ natDec s.serial), q ∈ l) ∧
    (l.length < ((cookiePrefixes s).map (fun pre => pre ++ natDec s.serial)).length →
      ((l.foldl (fun st q => (notifyCookie st q).1) (sync touch s).1).store s.nextId).outcome
        = none) := by
  set paths := (cookiePrefixes s).map (fun pre => pre ++ natDec s.serial) with hpaths
  have hPnd : paths.Nodup := syncPaths_nodup s hdirs
  have hpresne : cookiePrefixes s ≠ [] := by
    intro hc
    exact hne (List.map_eq_nil.mp hc)
  have hPne : paths ≠ [] := by
    intro hc
    exact hpresne (List.map_eq_nil.mp hc)
  have hcntall : (cookiePrefixes s).countP
      (fun pre => (touch (pre ++ natDec s.serial)).isNone) = (cookiePrefixes s).length :=
    List.countP_eq_length.mpr (fun a ha => by rw [hsucc a ha]; rfl)
  have hsucc0 : 0 < (cookiePrefixes s).countP
      (fun pre => (touch (pre ++ natDec s.serial)).isNone) := by
    rw [hcntall]
    exact List.length_pos.mpr hpresne
  have hsync := sync_has_success touch s hsucc0
  have hcp : createdPending touch s.serial s.nextId (cookiePrefixes s)
      = paths.map (fun q => (q, s.nextId)) := by
    unfold createdPending
    rw [List.filter_eq_self.mpr (fun a ha => by rw [hsucc a ha]; rfl)]
    rw [hpaths, List.map_map]
    rfl
  have hpend_keys : (paths.map (fun q => (q, s.nextId))).Pairwise
      (fun a b => a.1 ≠ b.1) := by
    apply List.pairwise_map.mpr
    exact hPnd
  have hbase : ∀ q ∈ paths, s.table.lookup q = none := by
    intro q hq
    rcases List.mem_map.mp hq with ⟨pre, hpre, hqe⟩
    rw [← hqe]
    exact hfresh pre hpre
  have hpend_fresh : ∀ e ∈ paths.map (fun q => (q, s.nextId)),
      s.table.lookup e.1 = none := by
    intro e he
    rcases List.mem_map.mp he with ⟨q, hq, hqe⟩
    rw [← hqe]
    exact hbase q hq
  have htab : (sync touch s).1.table = s.table ++ paths.map (fun q => (q, s.nextId)) := by
    rw [hsync]
    show tableInsert s.table (createdPending touch s.serial s.nextId (cookiePrefixes s)) = _
    rw [hcp]
    exact tableInsert_fresh _ _ hpend_fresh hpend_keys
  have hstorecid : (sync touch s).1.store s.nextId = ⟨paths.length, none⟩ := by
    rw [hsync]
    show updateStore s.store s.nextId _ s.nextId = _
    simp [updateStore, hcntall, hpaths]
  obtain ⟨P2, _, _, _, hst⟩ :=
    notify_fold_progress l paths s.table (sync touch s).1 s.nextId
      hlnd hlsub hPnd hPne hbase htab hstorecid
  constructor
  · rw [hst]
    by_cases hc : l.length = paths.length
    · rw [if_pos hc]
      constructor
      · intro _ q hq
        have hsp : l.Subperm paths := List.subperm_of_subset hlnd hlsub
        have hperm : l.Perm paths := hsp.perm_of_length_le (by omega)
        exact hperm.symm.subset hq
      · intro _
        rfl
    · rw [if_neg hc]
      constructor
      · intro hcontra
        cases hcontra
      · intro hcover
        have h1 : l.length ≤ paths.length := subset_length_le hlnd hlsub
        have h2 : paths.length ≤ l.length := subset_length_le hPnd hcover
        exact absurd (by omega) hc
  · intro hlt
    rw [hst, if_neg (by omega)]

/-! ### Concrete states for witnesses and counterexamples -/

/-- A freshly constructed two-directory `CookieSync` (directories `/a`, `/b`,
cookie filename prefix `wpre-`). -/
def c1State : SyncState :=
  { dirs := ["/a", "/b"], cookiePfx := "wpre-", table := [],
    store := fun _ => ⟨0, none⟩, nextId := 0, serial := 0 }

/-- A single-directory `CookieSync` with an empty pending table. -/
def oneDirState : SyncState :=
  { dirs := ["/a"], cookiePfx := "wpre-", table := [],
    store := fun _ => ⟨0, none⟩, nextId := 0, serial := 0 }

/-- A `CookieSync` whose directory registry has been emptied. -/
def emptyDirState : SyncState :=
  { dirs := [], cookiePfx := "wpre-", table := [],
    store := fun _ => ⟨0, none⟩, nextId := 0, serial := 0 }

/-- A single-directory `CookieSync` with one outstanding single-share cookie. -/
def pendingState : SyncState :=
  { dirs := ["/a"], cookiePfx := "wpre-", table := [("/a/wpre-0", 0)],
    store := fun i => if i = 0 then ⟨1, none⟩ else ⟨0, none⟩,
    nextId := 1, serial := 1 }

/-- A `CookieSync` with one already-fulfilled cookie and nothing pending. -/
def fulfilledState : SyncState :=
  { dirs := ["/a"], cookiePfx := "wpre-", table := [],
    store := fun i => if i = 0 then ⟨0, some true⟩ else ⟨0, none⟩,
    nextId := 1, serial := 3 }

theorem pendingState_inv : StateInv pendingState := by
  refine ⟨by simp [pendingState], by simp [pendingState], ?_, ?_, ?_⟩
  · intro e he
    simp [pendingState] at he
    simp [pendingState, he]
  · intro id
    by_cases h : id = 0
    · subst h
      simp [pendingState, entryCount]
    · have hbeq : ((0 : Nat) == id) = false :=
        beq_eq_false_iff_ne.mpr (fun hc => h hc.symm)
      simp [pendingState, entryCount, List.countP_cons, hbeq, h]
  · intro id h
    by_cases h0 : id = 0
    · subst h0
      simp [pendingState] at h
    · simp [pendingState, h0] at h

theorem fulfilledState_inv : StateInv fulfilledState := by
  refine ⟨by simp [fulfilledState], by simp [fulfilledState], by simp [fulfilledState], ?_, ?_⟩
  · intro id
    by_cases h : id = 0 <;> simp [fulfilledState, entryCount, h]
  · intro id h
    by_cases h0 : id = 0
    · simp [fulfilledState, h0]
    · simp [fulfilledState, h0] at h

/-- C1 witness: in a two-directory barrier where both files are created, the
two notifications delivered in reverse creation order fulfil the handle. -/
theorem sync_barrier_completion_witness :
    ((["/b/wpre-0", "/a/wpre-0"].foldl (fun st q => (notifyCookie st q).1)
        (sync (fun _ => none) c1State).1).store 0).outcome = some true := by
  have h := sync_barrier_completion c1State (fun _ => none) ["/b/wpre-0", "/a/wpre-0"]
    (by decide) (by decide) (fun pre _ => rfl) (fun pre _ => rfl)
    (by decide) (by decide)
  exact h.1.mpr (by decide)

/-- C2: across any sequence of `notifyCookie` / `removeCookieDir` /
`abortAllCookies` operations from a state satisfying the `CookieSync`
invariant, a completion handle that is terminal stays terminal with the same
value (never both fulfilled and aborted), and a single decrement step changes
a handle only when it observes the last outstanding share (fetched value 1,
stored value 0). -/
theorem cookie_terminal_transition_once (s : SyncState) (hInv : StateInv s)
    (ops : List Op) (id : Nat) :
    (∀ x, (s.store id).outcome = some x →
      ((applyOps s ops).store id).outcome = some x) ∧
    (∀ (c : Cookie) (v : Bool), (Cookie.notifyVal v c).outcome ≠ c.outcome →
      c.numPending = 1 ∧ (Cookie.notifyVal v c).numPending = 0) := by
  constructor
  · intro x hx
    exact (applyOps_preserves s hInv ops).2 id x hx
  · intro c v hch
    by_cases h1 : c.numPending = 1
    · exact ⟨h1, by simp [Cookie.notifyVal, h1]⟩
    · exact absurd (by simp [Cookie.notifyVal, h1]) hch

/-- C2 witness: a fulfilled cookie stays fulfilled across an abort, a
notification and a directory removal, and the decrement step zeroes the
count when it transitions. -/
theorem cookie_terminal_transition_once_witness :
    ((applyOps fulfilledState
        [Op.abortAll, Op.notify "/a/wpre-0", Op.remove "/a"]).store 0).outcome
      = some true ∧
    (Cookie.notifyVal false ⟨1, none⟩).numPending = 0 := by
  have h := cookie_terminal_transition_once fulfilledState fulfilledState_inv
    [Op.abortAll, Op.notify "/a/wpre-0", Op.remove "/a"] 0
  exact ⟨h.1 true (by simp [fulfilledState]),
         (h.2 ⟨1, none⟩ false (by decide)).2⟩

/-- C3: `syncToNow` fixes the absolute deadline at entry; a wait that exceeds
the current timeout fails with Timeout and does not retry; a fulfilled handle
returns success; an aborted handle retries with the remaining time against
the original deadline when it is positive and otherwise propagates the abort
as the final error. -/
theorem syncToNow_loop_behavior (rest : List (Option (Bool × Int)))
    (start now deadline timeout t : Int) (v : Bool) :
    (syncToNow rest start timeout
        = syncToNowLoop rest start (start + timeout) timeout) ∧
    (syncToNowLoop (none :: rest) now deadline timeout = some .timedOut) ∧
    (t > timeout →
      syncToNowLoop (some (v, t) :: rest) now deadline timeout = some .timedOut) ∧
    (t ≤ timeout →
      syncToNowLoop (some (true, t) :: rest) now deadline timeout = some .success) ∧
    (t ≤ timeout → 0 < deadline - (now + t) →
      syncToNowLoop (some (false, t) :: rest) now deadline timeout
        = syncToNowLoop rest (now + t) deadline (deadline - (now + t))) ∧
    (t ≤ timeout → deadline - (now + t) ≤ 0 →
      syncToNowLoop (some (false, t) :: rest) now deadline timeout
        = some .abortPropagated) := by
  refine ⟨rfl, rfl, ?_, ?_, ?_, ?_⟩
  · intro ht
    simp [syncToNowLoop, ht]
  · intro ht
    simp [syncToNowLoop, not_lt.mpr ht]
  · intro ht hd
    simp [syncToNowLoop, not_lt.mpr ht]
    omega
  · intro ht hd
    simp [syncToNowLoop, not_lt.mpr ht]
    omega

/-- C3 witness: a 500 ms call whose first barrier is aborted after 50 ms
retries with 450 ms left and succeeds when the second barrier resolves after
100 ms; a never-resolving barrier times out. -/
theorem syncToNow_loop_behavior_witness :
    syncToNow [some (false, 50), some (true, 100)] 0 500 = some STNResult.success ∧
    syncToNow [none] 0 100 = some STNResult.timedOut := by
  constructor
  · have h1 := syncToNow_loop_behavior [some (true, 100)] 0 0 500 500 50 false
    have h2 := syncToNow_loop_behavior [] 0 50 500 450 100 true
    have e1 : syncToNow [some (false, 50), some (true, 100)] 0 500
        = syncToNowLoop [some (false, 50), some (true, 100)] 0 500 500 := rfl
    rw [e1, h1.2.2.2.2.1 (by decide) (by decide)]
    have e2 : (0 : Int) + 50 = 50 := by decide
    have e3 : (500 : Int) - (0 + 50) = 450 := by decide
    rw [e3, e2]
    exact h2.2.2.2.1 (by decide)
  · exact (syncToNow_loop_behavior [] 0 0 100 100 0 true).2.1

/-- C7 counterexample: with registry `{/a}` and prefix `wpre-`, the path
`/a/sub/wpre-1` has parent directory `/a/sub`, which is not a registry member,
yet `isCookiePrefix` returns true (it only requires a registered directory to
be a string prefix of the whole path). -/
theorem isCookiePath_parent_counterexample :
    isCookiePath oneDirState "/a/sub/wpre-1" = true ∧
    isCookiePathParentSpec oneDirState "/a/sub/wpre-1" = false := by
  exact ⟨by decide, by decide⟩

/-- C7 amended: `isCookiePrefix(path)` returns true iff some registered
directory is a string prefix of `path` and `path`'s filename starts with the
shared cookie prefix (the parent directory need not be an exact registry
member). -/
theorem isCookiePath_characterization (s : SyncState) (path : String) :
    isCookiePath s path = true ↔
      ∃ d ∈ s.dirs, wStringStartswith path d = true ∧
        wStringStartswith (baseName path) s.cookiePfx = true := by
  unfold isCookiePath
  rw [List.any_eq_true]
  constructor
  · rintro ⟨d, hd, hb⟩
    rw [Bool.and_eq_true] at hb
    exact ⟨d, hd, hb.1, hb.2⟩
  · rintro ⟨d, hd, h1, h2⟩
    exact ⟨d, hd, by rw [h1, h2]; rfl⟩

/-- C8: `notifyCookie` on a path absent from the pending table leaves the
whole state unchanged and passes nothing to `unlink`. -/
theorem notifyCookie_absent_noop (s : SyncState) (path : String)
    (h : s.table.lookup path = none) :
    notifyCookie s path = (s, none) :=
  notifyCookie_not_found h

/-- C8 witness: notifying a non-cookie path on a state with one pending
cookie is a no-op. -/
theorem notifyCookie_absent_noop_witness :
    notifyCookie pendingState "/a/other" = (pendingState, none) :=
  notifyCookie_absent_noop pendingState "/a/other" (by decide)

/-- C4: if every registered directory's cookie file creation fails, `sync()`
leaves the table/store untouched (only the serial advances) and throws an
error carrying the path and OS error code of the last recorded failure; if at
least one creation succeeds, `sync()` returns normally and the per-directory
failures only reduce the new Cookie's remaining count (it equals the number
of successful creations). -/
theorem sync_failure_handling (s : SyncState) (touch : String → Option Nat)
    (code : String → Nat) (lp : String) :
    ((∀ pre ∈ cookiePrefixes s, touch (pre ++ natDec s.serial) = some (code pre)) →
      (cookiePrefixes s).getLast? = some lp →
      sync touch s = ({ s with serial := s.serial + 1 },
        .error (.lastErr (lp ++ natDec s.serial) (code lp)))) ∧
    (0 < (cookiePrefixes s).countP
        (fun pre => (touch (pre ++ natDec s.serial)).isNone) →
      (sync touch s).2 = .ok s.nextId ∧
      (sync touch s).1.store s.nextId
        = ⟨(cookiePrefixes s).countP
            (fun pre => (touch (pre ++ natDec s.serial)).isNone), none⟩) := by
  constructor
  · intro hfail hlp
    exact sync_all_fail touch s code hfail lp hlp
  · intro hsucc
    rw [sync_has_success touch s hsucc]
    refine ⟨rfl, ?_⟩
    show updateStore _ _ _ _ = _
    simp [updateStore]

/-- C4 witness: with one directory, an all-failing creation (errno 28)
surfaces the failure path and code; an all-succeeding creation returns the
cookie handle. -/
theorem sync_failure_handling_witness :
    sync (fun _ => some 28) oneDirState
        = ({ oneDirState with serial := oneDirState.serial + 1 },
           .error (.lastErr ("/a/wpre-" ++ natDec 0) 28)) ∧
    (sync (fun _ => none) oneDirState).2 = .ok 0 := by
  constructor
  · exact (sync_failure_handling oneDirState (fun _ => some 28) (fun _ => 28)
      "/a/wpre-").1 (fun pre _ => rfl) (by decide)
  · exact ((sync_failure_handling oneDirState (fun _ => none) (fun _ => 0)
      "/a/wpre-").2 (by decide)).1

/-! ### Serial number monotonicity (claim C9) -/

theorem sync_serial_succ (touch : String → Option Nat) (s : SyncState) :
    (sync touch s).1.serial = s.serial + 1 := by
  simp only [sync]
  split
  · split <;> rfl
  · rfl

theorem applyFullOp_serial_mono (s : SyncState) (op : FullOp) :
    s.serial ≤ (applyFullOp s op).serial := by
  cases op with
  | sync touch =>
    show s.serial ≤ (sync touch s).1.serial
    rw [sync_serial_succ]
    omega
  | notify p =>
    show s.serial ≤ (notifyCookie s p).1.serial
    rcases h : s.table.lookup p with _ | id <;> simp [notifyCookie, h]
  | remove d => exact Nat.le_refl _
  | abortAll => exact Nat.le_refl _

theorem serialTrace_lb (ops : List FullOp) :
    ∀ (s : SyncState) (x : Nat), x ∈ serialTrace s ops → s.serial ≤ x := by
  induction ops with
  | nil =>
    intro s x hx
    cases hx
  | cons op rest ih =>
    intro s x hx
    cases op with
    | sync touch =>
      rcases List.mem_cons.mp hx with h | h
      · omega
      · have hle := ih (sync touch s).1 x h
        rw [sync_serial_succ] at hle
        omega
    | notify p =>
      have hle := ih (applyFullOp s (.notify p)) x hx
      have hm := applyFullOp_serial_mono s (.notify p)
      omega
    | remove d =>
      have hle := ih (applyFullOp s (.remove d)) x hx
      have hm := applyFullOp_serial_mono s (.remove d)
      omega
    | abortAll =>
      have hle := ih (applyFullOp s .abortAll) x hx
      have hm := applyFullOp_serial_mono s .abortAll
      omega

theorem serialTrace_pairwise (ops : List FullOp) :
    ∀ s : SyncState, (serialTrace s ops).Pairwise (· < ·) := by
  induction ops with
  | nil =>
    intro s
    exact List.Pairwise.nil
  | cons op rest ih =>
    intro s
    cases op with
    | sync touch =>
      refine List.pairwise_cons.mpr ⟨?_, ih _⟩
      intro x hx
      have hle := serialTrace_lb rest (sync touch s).1 x hx
      rw [sync_serial_succ] at hle
      omega
    | notify p => exact ih _
    | remove d => exact ih _
    | abortAll => exact ih _

/-- C9: along any operation sequence, the serials handed to successive
`sync()` calls are strictly increasing (hence pairwise distinct, never
reused), and two cookie file paths built from the same directory prefix with
different serials never collide. -/
theorem sync_serial_monotone (s : SyncState) (ops : List FullOp) :
    (serialTrace s ops).Pairwise (· < ·) ∧ (serialTrace s ops).Nodup ∧
    ∀ (pre : String) (a b : Nat), a ≠ b → pre ++ natDec a ≠ pre ++ natDec b := by
  refine ⟨serialTrace_pairwise ops s, ?_, fun pre a b h => append_natDec_ne h⟩
  exact (serialTrace_pairwise ops s).imp (fun h => Nat.ne_of_lt h)

/-- C9 witness: two consecutive `sync()` calls record serials 0 and 1, and
the corresponding cookie paths for the same directory differ. -/
theorem sync_serial_monotone_witness :
    serialTrace oneDirState [FullOp.sync (fun _ => none), FullOp.sync (fun _ => none)]
        = [0, 1] ∧
    "/a/wpre-" ++ natDec 0 ≠ "/a/wpre-" ++ natDec 1 := by
  refine ⟨by decide, ?_⟩
  exact (sync_serial_monotone oneDirState []).2.2 "/a/wpre-" 0 1 (by decide)

theorem getLast_exists {l : List String} (h : l ≠ []) : ∃ a, l.getLast? = some a := by
  induction l with
  | nil => exact absurd rfl h
  | cons a t ih =>
    cases t with
    | nil => exact ⟨a, rfl⟩
    | cons b u =>
      rcases ih (by simp) with ⟨x, hx⟩
      exact ⟨x, by rw [List.getLast?_cons_cons]; exact hx⟩

/-- C10: with an empty directory registry, the creation loop of `sync()` runs
zero iterations, so no cookie is created and no error is recorded, and the
all-failed branch is entered with `lastError` empty — the state in which
`w_assert(lastError.has_value(), "no cookies written, but no errors set")` is
violated; with at least one registered directory the assertion holds: `sync`
never reaches the assert-failure outcome. -/
theorem sync_empty_registry_assert (s : SyncState) (touch : String → Option Nat) :
    (s.dirs = [] →
      sync touch s = ({ s with serial := s.serial + 1 }, .error .assertNoError)) ∧
    (cookiePrefixes s ≠ [] →
      (sync touch s).2 ≠ .error .assertNoError) := by
  constructor
  · intro hd
    simp [sync, cookiePrefixes, hd]
  · intro hne
    simp only [sync]
    rw [sync_foldl_eq]
    simp only [List.nil_append]
    by_cases hcp : createdPending touch s.serial s.nextId (cookiePrefixes s) = []
    · rw [hcp]
      have hfail : ∀ pre ∈ cookiePrefixes s, (touch (pre ++ natDec s.serial)).isSome := by
        unfold createdPending at hcp
        have hf := List.map_eq_nil_iff.mp hcp
        intro pre hpre
        have hni := List.filter_eq_nil_iff.mp hf pre hpre
        rcases ht : touch (pre ++ natDec s.serial) with _ | c
        · rw [ht] at hni
          simp at hni
        · rfl
      obtain ⟨lp, hlp⟩ := getLast_exists hne
      have hcode : ∀ pre ∈ cookiePrefixes s,
          touch (pre ++ natDec s.serial)
            = some ((touch (pre ++ natDec s.serial)).getD 0) := by
        intro pre hpre
        have hs := hfail pre hpre
        rcases ht : touch (pre ++ natDec s.serial) with _ | c
        · rw [ht] at hs
          cases hs
        · rfl
      rw [lastErrorOf_all_fail touch s.serial (cookiePrefixes s)
        (fun pre => (touch (pre ++ natDec s.serial)).getD 0) hcode lp hlp none]
      simp
    · rw [if_neg hcp]
      simp

/-- C10 witness: `sync()` on an emptied registry hits the assert-failure
branch; with one registered directory and failing creation it reports the OS
error instead. -/
theorem sync_empty_registry_assert_witness :
    sync (fun _ => none) emptyDirState
        = ({ emptyDirState with serial := emptyDirState.serial + 1 },
           .error .assertNoError) ∧
    (sync (fun _ => some 13) oneDirState).2 ≠ .error .assertNoError := by
  exact ⟨(sync_empty_registry_assert emptyDirState (fun _ => none)).1 rfl,
         (sync_empty_registry_assert oneDirState (fun _ => some 13)).2 (by decide)⟩

/-- C5: `abortAllCookies` empties the pending table; every cookie with at
least one displaced entry is driven to the terminal failed-aborted state
(count zero, aborted exception set); cookies with no displaced entry are
untouched; and a subsequent all-successful `sync()` over a non-empty registry
succeeds, allocating a fresh cookie (remaining count = number of registered
directories) without touching any other cookie. -/
theorem abortAllCookies_spec (s : SyncState) (hInv : StateInv s)
    (touch : String → Option Nat) :
    (abortAllCookies s).table = [] ∧
    (∀ id, 0 < entryCount s.table id →
      (abortAllCookies s).store id = ⟨0, some false⟩) ∧
    (∀ id, entryCount s.table id = 0 →
      (abortAllCookies s).store id = s.store id) ∧
    (s.dirs ≠ [] →
      (∀ pre ∈ cookiePrefixes s, touch (pre ++ natDec s.serial) = none) →
      (sync touch (abortAllCookies s)).2 = .ok s.nextId ∧
      (sync touch (abortAllCookies s)).1.store s.nextId
        = ⟨(cookiePrefixes s).length, none⟩ ∧
      ∀ id, id ≠ s.nextId →
        (sync touch (abortAllCookies s)).1.store id
          = (abortAllCookies s).store id) := by
  obtain ⟨hkeys, hdirs, hids, hcnt, hterm⟩ := hInv
  have hstore : ∀ id, (abortAllCookies s).store id
      = iterNotify false (entryCount s.table id) (s.store id) :=
    fun id => foldNotifyStore_apply false s.table s.store id
  refine ⟨rfl, ?_, ?_, ?_⟩
  · intro id hpos
    have hocnone : (s.store id).outcome = none := by
      by_contra hoc
      have hc := hcnt id
      rw [if_neg hoc] at hc
      omega
    have hnp : (s.store id).numPending = entryCount s.table id := by
      have hc := hcnt id
      rw [if_pos hocnone] at hc
      omega
    rw [hstore id, cookie_eta (s.store id), hocnone, hnp]
    exact iterNotify_complete false _ hpos
  · intro id h0
    rw [hstore id, h0]
    rfl
  · intro hne hsucc
    have heq : cookiePrefixes (abortAllCookies s) = cookiePrefixes s := rfl
    have hser : (abortAllCookies s).serial = s.serial := rfl
    have hsucc0 : 0 < (cookiePrefixes (abortAllCookies s)).countP
        (fun pre => (touch (pre ++ natDec (abortAllCookies s).serial)).isNone) := by
      rw [heq, hser]
      rw [List.countP_eq_length.mpr (fun a ha => by rw [hsucc a ha]; rfl)]
      apply List.length_pos.mpr
      intro hc
      exact hne (List.map_eq_nil_iff.mp hc)
    rw [sync_has_success touch (abortAllCookies s) hsucc0]
    have hnx : (abortAllCookies s).nextId = s.nextId := rfl
    refine ⟨rfl, ?_, ?_⟩
    · show updateStore _ _ _ _ = _
      simp only [updateStore]
      rw [hnx, if_pos rfl]
      have hc : (cookiePrefixes (abortAllCookies s)).countP
          (fun pre => (touch (pre ++ natDec (abortAllCookies s).serial)).isNone)
          = (cookiePrefixes s).length := by
        rw [heq, hser]
        exact List.countP_eq_length.mpr (fun a ha => by rw [hsucc a ha]; rfl)
      rw [hc]
    · intro id hid
      show updateStore _ _ _ id = _
      simp only [updateStore]
      rw [hnx, if_neg hid]

/-- C5 witness: aborting a state with one outstanding single-share cookie
empties the table, drives that cookie to failed-aborted, and a fresh `sync()`
afterwards succeeds with an independent cookie. -/
theorem abortAllCookies_spec_witness :
    (abortAllCookies pendingState).table = [] ∧
    (abortAllCookies pendingState).store 0 = ⟨0, some false⟩ ∧
    (sync (fun _ => none) (abortAllCookies pendingState)).2 = .ok 1 := by
  have h := abortAllCookies_spec pendingState pendingState_inv (fun _ => none)
  exact ⟨h.1, h.2.1 0 (by decide), (h.2.2.2 (by decide) (fun pre _ => rfl)).1⟩

/-- C6 (proved of the modelled intended semantics of `removeCookieDir`; the
source's own loop erases `unordered_map` entries while range-iterating over
the map, which invalidates the iterator — see the `removeCookieDir` doc
comment): every pending entry whose path starts with the removed directory is
erased from the table and its cookie's remaining count is decremented once
per displaced entry, fulfilling the cookie exactly when the displaced entries
were all of its remaining shares; afterwards `notifyCookie` on an erased path
has no effect. -/
theorem removeCookieDir_intended (s : SyncState) (hInv : StateInv s)
    (dir p : String) (id : Nat)
    (hmem : (p, id) ∈ s.table) (hpre : wStringStartswith p dir = true) :
    (removeCookieDir s dir).table.lookup p = none ∧
    notifyCookie (removeCookieDir s dir) p = (removeCookieDir s dir, none) ∧
    0 < entryCount (matchedEntries s.table dir) id ∧
    ((removeCookieDir s dir).store id).numPending
      = (s.store id).numPending - entryCount (matchedEntries s.table dir) id ∧
    (((removeCookieDir s dir).store id).outcome = some true ↔
      entryCount (matchedEntries s.table dir) id = (s.store id).numPending) := by
  obtain ⟨hkeys, hdirs, hids, hcnt, hterm⟩ := hInv
  have hlook : (removeCookieDir s dir).table.lookup p = none := by
    rw [lookup_eq_none_iff]
    intro e he
    rw [remove_table_eq] at he
    have hb := (List.mem_filter.mp he).2
    intro hc
    rw [hc, hpre] at hb
    cases hb
  have hmm : (p, id) ∈ matchedEntries s.table dir :=
    List.mem_filter.mpr ⟨hmem, hpre⟩
  have hkm : 0 < entryCount (matchedEntries s.table dir) id :=
    List.countP_pos_iff.mpr ⟨(p, id), hmm, beq_iff_eq.mpr rfl⟩
  have hsplit := remove_count_split s dir id
  have houtc : (s.store id).outcome = none := by
    by_contra hoc
    have hc := hcnt id
    rw [if_neg hoc] at hc
    omega
  have hnp : (s.store id).numPending = entryCount s.table id := by
    have hc := hcnt id
    rw [if_pos houtc] at hc
    omega
  have hstoreid : (removeCookieDir s dir).store id
      = iterNotify true (entryCount (matchedEntries s.table dir) id) (s.store id) :=
    foldNotifyStore_apply true (matchedEntries s.table dir) s.store id
  refine ⟨hlook, notifyCookie_not_found hlook, hkm, ?_, ?_⟩
  · rw [hstoreid, cookie_eta (s.store id), houtc, hnp]
    by_cases hcase : entryCount (matchedEntries s.table dir) id = entryCount s.table id
    · rw [hcase, iterNotify_complete true _ (by omega)]
      simp
    · rw [iterNotify_pending_lt true _ _ (by omega)]
  · rw [hstoreid, cookie_eta (s.store id), houtc, hnp]
    by_cases hcase : entryCount (matchedEntries s.table dir) id = entryCount s.table id
    · rw [hcase, iterNotify_complete true _ (by omega)]
      simp
    · rw [iterNotify_pending_lt true _ _ (by omega)]
      simp
      omega

/-- C6 witness (for the intended-semantics model): removing `/a` erases the
pending cookie under it and fulfils its single-share cookie; re-notifying the
erased path is a no-op. -/
theorem removeCookieDir_intended_witness :
    (removeCookieDir pendingState "/a").table.lookup "/a/wpre-0" = none ∧
    ((removeCookieDir pendingState "/a").store 0).outcome = some true := by
  have h := removeCookieDir_intended pendingState pendingState_inv "/a" "/a/wpre-0" 0
    (by decide) (by decide)
  exact ⟨h.1, h.2.2.2.2.mpr (by decide)⟩
